import Mathlib

/-!
Verification development for the Infoscience imports pipeline
(record deduplication, author reconciliation, OA enrichment, UI state).

The pipeline modules themselves (deduplicator, enricher, clients) are not
part of the checked-in sources here; the definitions below are shallow
embeddings modelled from the specification, except for the UI button logic
which is embedded directly from static/js/script.js.
-/

namespace Infoscience

/-! ## Character-level normalization helpers -/

/-- Whitespace characters recognized by the normalizers. -/
def isSpaceChar (c : Char) : Bool :=
  c = ' ' || c = '\t' || c = '\n' || c = '\r'

/-- Punctuation characters stripped or collapsed by the normalizers. -/
def isPunctChar (c : Char) : Bool :=
  c = '.' || c = ',' || c = ';' || c = ':' || c = '!' || c = '?' ||
  c = '-' || c = '(' || c = ')' || c = '"'

/-- Separator for title normalization: punctuation and whitespace collapse. -/
def isTitleSep (c : Char) : Bool :=
  isSpaceChar c || isPunctChar c

/-- Split a character list at separators; returns the current word and the
list of earlier words (possibly empty words, filtered by `wordsP`). -/
def splitAux (p : Char → Bool) : List Char → List Char × List (List Char)
  | [] => ([], [])
  | c :: cs =>
    let r := splitAux p cs
    if p c then ([], r.1 :: r.2) else (c :: r.1, r.2)

/-- The non-empty tokens of a character list, split at separators. -/
def wordsP (p : Char → Bool) (l : List Char) : List (List Char) :=
  let r := splitAux p l
  (r.1 :: r.2).filter (fun w => w ≠ [])

/-- Join tokens with single spaces. -/
def unwords : List (List Char) → List Char
  | [] => []
  | [w] => w
  | w :: ws => w ++ ' ' :: unwords ws

/-! ## Normalized identity keys (spec §4.1)

Modelled from the spec: `deduplicator.py` is absent from the sources; the
identity-key rule is taken from §4.1 — normalized DOI (lowercased,
whitespace-stripped) first, else exact normalized-title + pubyear
(title lowercased, punctuation and whitespace collapsed). -/

/-- Modelled from the spec: DOI normalization — lowercased, whitespace-stripped. -/
def normalizeDoi (s : String) : String :=
  ⟨(s.data.filter (fun c => ¬ isSpaceChar c)).map Char.toLower⟩

/-- Modelled from the spec: title normalization — lowercased, punctuation and
whitespace collapsed to single spaces. -/
def normalizeTitle (s : String) : String :=
  ⟨unwords (wordsP isTitleSep (s.data.map Char.toLower))⟩

/-- One author as listed on one SourceRecord (spec §3). -/
structure AuthorMention where
  display_name : String
  orcid : Option String
  raw_affiliations : List String
deriving DecidableEq, Repr

/-- One publication as reported by one source (spec §3). -/
structure SourceRecord where
  source : String
  internal_id : String
  doi : String
  title : String
  doctype : String
  pubyear : Int
  authors : List AuthorMention
deriving DecidableEq, Repr

/-- Identity key of a record: DOI-based or title+year-based (spec §4.1). -/
inductive IdKey where
  | doiKey (d : String)
  | titleYear (t : String) (y : Int)
deriving DecidableEq, Repr

/-- Modelled from the spec: identity key derivation, strict precedence —
non-empty normalized DOI first, else normalized title + pubyear. -/
def identityKey (r : SourceRecord) : IdKey :=
  if normalizeDoi r.doi ≠ "" then .doiKey (normalizeDoi r.doi)
  else .titleYear (normalizeTitle r.title) r.pubyear

/-- Modelled from the spec: cross-source merge (`deduplicate_dataframes`) —
records sharing an identity key merge into one canonical group; each
distinct key yields exactly one group. -/
def canonicalSet (l : List SourceRecord) : List (IdKey × List SourceRecord) :=
  ((l.map identityKey).dedup).map
    (fun k => (k, l.filter (fun r => identityKey r = k)))

/-- The canonical set viewed up to entry order and group order. -/
def canonicalSetM (l : List SourceRecord) : List (IdKey × Multiset SourceRecord) :=
  (canonicalSet l).map (fun e => (e.1, (e.2 : Multiset SourceRecord)))

/-! ## Unit reconciliation (spec §4.2 stage 5) -/

/-- A directory organizational unit with its type, in rank order. -/
structure OrgUnit where
  unit_id : String
  unit_name : String
  unit_type : String
deriving DecidableEq, Repr

/-- Modelled from the spec: `AuthorProcessor.reconcile_authors` unit selection
(enricher.py is absent) — scan the rank-ordered unit list for the first unit
whose type is the configured laboratory type; if none qualifies, fall back to
the first unit in rank order. -/
def selectUnit (labType : String) (units : List OrgUnit) : Option OrgUnit :=
  match units.find? (fun u => u.unit_type = labType) with
  | some u => some u
  | none => units.head?

/-! ## OA enrichment gate (spec §4.3) -/

/-- One OA location reported by the OA-metadata service. -/
structure OaLocation where
  url : String
  version : String
  license : String
deriving DecidableEq, Repr

/-- An OA record as returned by the OA-metadata service. -/
structure OaRecord where
  is_oa : Bool
  oa_status : String
  locations : List OaLocation
deriving DecidableEq, Repr

/-- Configured OA gate: allowed statuses, published-version marker, allowed licenses. -/
structure OaConfig where
  allowedStatuses : List String
  publishedVersion : String
  allowedLicenses : List String
deriving Repr

/-- Modelled from the spec: `UnpaywallClient.fetch_by_doi` URL extraction
(unpaywall_client.py is absent) — a URL is included only if `is_oa` is true,
`oa_status` is in the allow-set, the location version equals the
published-version marker and its license is in the license allow-set. -/
def extractUrls (cfg : OaConfig) (rec : OaRecord) : List String :=
  if rec.is_oa ∧ rec.oa_status ∈ cfg.allowedStatuses then
    (rec.locations.filter
      (fun loc => loc.version = cfg.publishedVersion ∧
        loc.license ∈ cfg.allowedLicenses)).map (fun loc => loc.url)
  else []

/-! ## Doctype mapping during merge (spec §4.1 merge policy) -/

/-- Doctype → collection lookup in a mapping table. -/
def mapDoctype (mapping : List (String × String)) (dt : String) : Option String :=
  (mapping.find? (fun e => e.1 = dt)).map (fun e => e.2)

/-- Outcome of merging one identity-key group: the chosen collection (if any),
per-source error notes, and a rejection reason when no contribution maps. -/
structure MergeOutcome where
  collection : Option String
  notes : List (String × String)
  rejected : Option String
deriving Repr

/-- Order a group by the configured source preference order; sources not in
the order keep their position at the end. -/
def orderBySource (prefOrder : List String) (group : List SourceRecord) :
    List SourceRecord :=
  (prefOrder.map (fun s => group.filter (fun r => r.source = s))).flatten ++
    group.filter (fun r => ¬ r.source ∈ prefOrder)

/-- Modelled from the spec: merge-time doctype resolution (deduplicator.py is
absent) — the collection comes from the first preference-ordered contribution
whose doctype maps; every unmapped contribution gets an `UnmappedDoctypeError`
note; if no contribution maps the publication is rejected with reason
`unmappable_doctype`. -/
def mergeGroupDoctype (mapping : List (String × String)) (prefOrder : List String)
    (group : List SourceRecord) : MergeOutcome :=
  let notes := (group.filter (fun r => mapDoctype mapping r.doctype = none)).map
    (fun r => (r.source, "UnmappedDoctypeError"))
  match ((orderBySource prefOrder group).filterMap
      (fun r => mapDoctype mapping r.doctype)).head? with
  | some c => ⟨some c, notes, none⟩
  | none => ⟨none, notes, some "unmappable_doctype"⟩

/-! ## Catalog-dedup pass (spec §4.1 catalog pass, §6 catalog collaborator) -/

/-- A canonical publication as fed to the catalog pass. -/
structure CanonicalPub where
  doi : String
  title : String
  pubyear : Int
deriving DecidableEq, Repr

/-- Modelled from the spec: `deduplicate_infoscience` (deduplicator.py is
absent) — each canonical publication is looked up in the catalog; a match
moves it to the rejected set with the catalog reference, a miss keeps it, and
any collaborator error is treated as a recoverable per-record failure keeping
the record as non-duplicate. -/
def catalogPass (lookup : CanonicalPub → Except String (Option String))
    (canon : List CanonicalPub) :
    List CanonicalPub × List (CanonicalPub × String) :=
  match canon with
  | [] => ([], [])
  | p :: rest =>
    let r := catalogPass lookup rest
    match lookup p with
    | .ok (some ref) => (r.1, (p, ref) :: r.2)
    | .ok none => (p :: r.1, r.2)
    | .error _ => (p :: r.1, r.2)

/-! ## Name cleaning (spec §4.2 stage 3) -/

/-- Honorific tokens stripped by name cleaning, lowercase forms. -/
def honorifics : List (List Char) :=
  ["dr".data, "prof".data, "mr".data, "mrs".data, "ms".data, "phd".data]

/-- Strip punctuation characters from one token. -/
def stripPunctTok (w : List Char) : List Char :=
  w.filter (fun c => ¬ isPunctChar c)

/-- Clean one token: strip punctuation, and drop the token if it becomes
empty or is an honorific. -/
def cleanTok (w : List Char) : Option (List Char) :=
  let w2 := stripPunctTok w
  if w2 = [] ∨ (w2.map Char.toLower) ∈ honorifics then none else some w2

/-- Character-level body of the name-cleaning stage. -/
def cleanChars (l : List Char) : List Char :=
  unwords ((wordsP isSpaceChar l).filterMap cleanTok)

/-- Modelled from the spec: `AuthorProcessor.clean_authors` (enricher.py is
absent) — strip titles/honorifics, normalize punctuation, collapse
whitespace. -/
def cleanName (s : String) : String :=
  ⟨cleanChars s.data⟩

/-! ## Affiliation flagging and filtering (spec §4.2 stages 1–2) -/

/-- One row of the authors-and-affiliations table. -/
structure AuthorRow where
  author : String
  organizations : List String
  institution_ids : List String
  epfl_affiliation : Bool
deriving DecidableEq, Repr

/-- Configured EPFL detection: name patterns and numeric institution ids. -/
structure EpflConfig where
  namePatterns : List String
  epflIds : List String
deriving Repr

/-- Modelled from the spec: the per-mention EPFL decision — true iff some raw
affiliation contains a configured EPFL name pattern or some institution id is
in the configured id list. -/
def decideEpfl (cfg : EpflConfig) (row : AuthorRow) : Bool :=
  row.organizations.any
      (fun org => cfg.namePatterns.any (fun pat => (org.splitOn pat).length > 1)) ||
    row.institution_ids.any (fun i => i ∈ cfg.epflIds)

/-- Modelled from the spec: `AuthorProcessor.process` affiliation-flag stage
(enricher.py is absent) — annotate every row with the EPFL decision, keeping
every row. -/
def flagAffiliations (cfg : EpflConfig) (rows : List AuthorRow) : List AuthorRow :=
  rows.map (fun row => { row with epfl_affiliation := decideEpfl cfg row })

/-- Modelled from the spec: `AuthorProcessor.filter_epfl_authors` — the
separate filter stage restricting to EPFL-flagged rows. -/
def filterEpflAuthors (rows : List AuthorRow) : List AuthorRow :=
  rows.filter (fun row => row.epfl_affiliation)

/-- Row with the annotation field reset, for frame comparisons. -/
def eraseFlag (row : AuthorRow) : AuthorRow :=
  { row with epfl_affiliation := false }

/-! ## Pipeline UI button state (static/js/script.js, lines 42–45) -/

/-- Disabled state of the two pipeline buttons. -/
structure ButtonState where
  startDisabled : Bool
  stopDisabled : Bool
deriving DecidableEq, Repr

/-- The function updateButtons(isRunning) from script.js: it sets
start-pipeline.disabled to isRunning and stop-pipeline.disabled to the
negation of isRunning. -/
def updateButtons (isRunning : Bool) (_s : ButtonState) : ButtonState :=
  { startDisabled := isRunning, stopDisabled := !isRunning }

/-- Number of positions at which two equal-length strings differ. -/
def hammingDiff (s t : String) : Nat :=
  (s.data.zip t.data).countP (fun p => ¬ p.1 = p.2)

/-! ## Theorems -/

/-- C10: after every call to updateButtons(isRunning), the start button's
disabled state equals isRunning, the stop button's disabled state equals the
negation of isRunning, hence exactly one of the two buttons is enabled. -/
theorem updateButtons_exclusive (isRunning : Bool) (s : ButtonState) :
    (updateButtons isRunning s).startDisabled = isRunning ∧
    (updateButtons isRunning s).stopDisabled = (!isRunning) ∧
    (updateButtons isRunning s).startDisabled ≠ (updateButtons isRunning s).stopDisabled := by
  refine ⟨rfl, rfl, ?_⟩
  cases isRunning <;> simp [updateButtons]

/-- C9: the affiliation-flag stage returns exactly the same author rows with
only the epfl_affiliation annotation recomputed — it removes no row, and each
output row carries the configured EPFL decision for its own data; filtering is
a separate stage that only selects among the flagged rows. -/
theorem flagAffiliations_frame (cfg : EpflConfig) (rows : List AuthorRow) :
    (flagAffiliations cfg rows).length = rows.length ∧
    (flagAffiliations cfg rows).map eraseFlag = rows.map eraseFlag ∧
    (∀ row ∈ flagAffiliations cfg rows,
      row.epfl_affiliation = decideEpfl cfg (eraseFlag row)) ∧
    (filterEpflAuthors (flagAffiliations cfg rows)).Sublist (flagAffiliations cfg rows) := by
  refine ⟨by simp [flagAffiliations], ?_, ?_, List.filter_sublist _⟩
  · simp only [flagAffiliations, List.map_map]
    rfl
  · intro row hrow
    simp only [flagAffiliations, List.mem_map] at hrow
    obtain ⟨orig, _, rfl⟩ := hrow
    rfl

/-- C4: OA enrichment includes a location URL iff is_oa is true, the status
is in the allow-set, the version equals the published-version marker and the
license is allowed; the gold/publishedVersion/cc-by record yields one URL and
the cc-by-nc variant yields zero. -/
theorem extractUrls_gate (cfg : OaConfig) (rec : OaRecord) (u : String) :
    (u ∈ extractUrls cfg rec ↔
      (rec.is_oa = true ∧ rec.oa_status ∈ cfg.allowedStatuses ∧
        ∃ loc ∈ rec.locations, loc.url = u ∧
          loc.version = cfg.publishedVersion ∧ loc.license ∈ cfg.allowedLicenses)) ∧
    extractUrls ⟨["gold", "hybrid"], "publishedVersion", ["cc-by"]⟩
      ⟨true, "gold", [⟨"u1", "publishedVersion", "cc-by"⟩]⟩ = ["u1"] ∧
    extractUrls ⟨["gold", "hybrid"], "publishedVersion", ["cc-by"]⟩
      ⟨true, "gold", [⟨"u1", "publishedVersion", "cc-by-nc"⟩]⟩ = [] := by
  refine ⟨?_, by decide, by decide⟩
  unfold extractUrls
  split
  · rename_i hgate
    simp only [List.mem_map, List.mem_filter]
    constructor
    · rintro ⟨loc, hloc, rfl⟩
      simp only [decide_eq_true_eq] at hloc
      exact ⟨by simpa using hgate.1, hgate.2, loc, hloc.1, rfl, hloc.2⟩
    · rintro ⟨_, _, loc, hmem, rfl, hver, hlic⟩
      exact ⟨loc, by simp [hmem, hver, hlic], rfl⟩
  · rename_i hgate
    simp only [List.not_mem_nil, false_iff]
    rintro ⟨hoa, hst, -⟩
    exact hgate ⟨by simp [hoa], hst⟩

/-- C3: unit reconciliation selects the first unit in rank order whose type
is the configured laboratory type, and falls back to the first unit of the
list when no unit has that type; in particular Office-then-Laboratory selects
the Laboratory unit while Office-then-Office selects the first Office. -/
theorem selectUnit_spec (labType : String) (units : List OrgUnit) :
    (∀ pre u post, units = pre ++ u :: post →
      (∀ v ∈ pre, v.unit_type ≠ labType) → u.unit_type = labType →
      selectUnit labType units = some u) ∧
    ((∀ u ∈ units, u.unit_type ≠ labType) → selectUnit labType units = units.head?) ∧
    selectUnit "Laboratory" [⟨"U1", "N1", "Office"⟩, ⟨"U2", "N2", "Laboratory"⟩] =
      some ⟨"U2", "N2", "Laboratory"⟩ ∧
    selectUnit "Laboratory" [⟨"U1", "N1", "Office"⟩, ⟨"U2", "N2", "Office"⟩] =
      some ⟨"U1", "N1", "Office"⟩ := by
  refine ⟨?_, ?_, by decide, by decide⟩
  · intro pre u post hsplit hpre hu
    have hfind : units.find? (fun v => v.unit_type = labType) = some u := by
      refine List.find?_eq_some.mpr ⟨by simp [hu], pre, post, hsplit, ?_⟩
      intro a ha
      simp [hpre a ha]
    simp [selectUnit, hfind]
  · intro hnone
    have hfind : units.find? (fun v => v.unit_type = labType) = none := by
      rw [List.find?_eq_none]
      intro x hx
      simp [hnone x hx]
    simp [selectUnit, hfind]

/-- Witness for C3 at the two-element Office/Laboratory list. -/
theorem selectUnit_spec_witness :
    selectUnit "Laboratory" [⟨"U1", "N1", "Office"⟩, ⟨"U2", "N2", "Laboratory"⟩] =
      some ⟨"U2", "N2", "Laboratory"⟩ := by
  refine (selectUnit_spec "Laboratory" _).1 [⟨"U1", "N1", "Office"⟩]
    ⟨"U2", "N2", "Laboratory"⟩ [] rfl ?_ rfl
  intro v hv
  simp only [List.mem_singleton] at hv
  subst hv
  decide

/-- The catalog pass conserves records: kept plus rejected account for the
whole input batch. -/
theorem catalogPass_length (lookup : CanonicalPub → Except String (Option String)) :
    ∀ canon : List CanonicalPub,
      (catalogPass lookup canon).1.length + (catalogPass lookup canon).2.length =
        canon.length := by
  intro canon
  induction canon with
  | nil => rfl
  | cons p rest ih =>
    unfold catalogPass
    rcases hl : lookup p with e | o
    · simpa [hl] using by omega
    · rcases o with - | ref <;> simp [hl] <;> omega

/-- Every rejected entry of the catalog pass comes from a successful catalog
match. -/
theorem catalogPass_rejected_matched (lookup : CanonicalPub → Except String (Option String)) :
    ∀ canon : List CanonicalPub, ∀ q ∈ (catalogPass lookup canon).2,
      q.1 ∈ canon ∧ lookup q.1 = .ok (some q.2) := by
  intro canon
  induction canon with
  | nil => intro q hq; simp [catalogPass] at hq
  | cons p rest ih =>
    intro q hq
    unfold catalogPass at hq
    rcases hl : lookup p with e | o
    · rw [hl] at hq
      obtain ⟨h1, h2⟩ := ih q hq
      exact ⟨List.mem_cons_of_mem _ h1, h2⟩
    · rcases o with - | ref
      · rw [hl] at hq
        obtain ⟨h1, h2⟩ := ih q hq
        exact ⟨List.mem_cons_of_mem _ h1, h2⟩
      · rw [hl] at hq
        rcases List.mem_cons.mp hq with h | h
        · subst h
          exact ⟨List.mem_cons_self _ _, hl⟩
        · obtain ⟨h1, h2⟩ := ih q h
          exact ⟨List.mem_cons_of_mem _ h1, h2⟩

/-- A record whose catalog lookup errors is kept in the canonical output. -/
theorem catalogPass_error_kept (lookup : CanonicalPub → Except String (Option String))
    (p : CanonicalPub) (e : String) (he : lookup p = .error e) :
    ∀ canon : List CanonicalPub, p ∈ canon → p ∈ (catalogPass lookup canon).1 := by
  intro canon
  induction canon with
  | nil => intro h; simp at h
  | cons q rest ih =>
    intro hp
    unfold catalogPass
    rcases List.mem_cons.mp hp with h | h
    · subst h
      rw [he]
      exact List.mem_cons_self _ _
    · rcases hl : lookup q with e2 | o
      · exact List.mem_cons_of_mem _ (ih h)
      · rcases o with - | ref
        · exact List.mem_cons_of_mem _ (ih h)
        · exact ih h

/-- C6: a catalog lookup error on a record never rejects it and never aborts
the batch — the record stays in the canonical output, appears in no rejected
entry, and the pass still accounts for every input record. -/
theorem catalogPass_fails_open (lookup : CanonicalPub → Except String (Option String))
    (canon : List CanonicalPub) (p : CanonicalPub) (e : String)
    (hp : p ∈ canon) (he : lookup p = .error e) :
    p ∈ (catalogPass lookup canon).1 ∧
    (∀ q ∈ (catalogPass lookup canon).2, q.1 ≠ p) ∧
    (catalogPass lookup canon).1.length + (catalogPass lookup canon).2.length =
      canon.length := by
  refine ⟨catalogPass_error_kept lookup p e he canon hp, ?_, catalogPass_length lookup canon⟩
  intro q hq hqp
  obtain ⟨-, hmatch⟩ := catalogPass_rejected_matched lookup canon q hq
  rw [hqp, he] at hmatch
  exact Except.noConfusion hmatch

/-- Witness for C6: a timeout on the only record keeps it and rejects nothing. -/
theorem catalogPass_fails_open_witness :
    (⟨"10.1/x", "T", 2024⟩ : CanonicalPub) ∈
      (catalogPass (fun _ => .error "timeout") [⟨"10.1/x", "T", 2024⟩]).1 ∧
    (∀ q ∈ (catalogPass (fun (_ : CanonicalPub) => (.error "timeout" : Except String (Option String)))
        [(⟨"10.1/x", "T", 2024⟩ : CanonicalPub)]).2, q.1 ≠ ⟨"10.1/x", "T", 2024⟩) ∧
    (catalogPass (fun (_ : CanonicalPub) => (.error "timeout" : Except String (Option String)))
        [(⟨"10.1/x", "T", 2024⟩ : CanonicalPub)]).1.length +
      (catalogPass (fun (_ : CanonicalPub) => (.error "timeout" : Except String (Option String)))
        [(⟨"10.1/x", "T", 2024⟩ : CanonicalPub)]).2.length = 1 :=
  catalogPass_fails_open (fun _ => .error "timeout") [⟨"10.1/x", "T", 2024⟩]
    ⟨"10.1/x", "T", 2024⟩ "timeout" (List.mem_singleton.mpr rfl) rfl

/-- C7: the catalog pass is stateless and deterministic — two runs over the
same canonical set against catalogs answering identically on that set produce
identical outputs, in particular identical rejected sets. -/
theorem catalogPass_idempotent (lookup1 lookup2 : CanonicalPub → Except String (Option String))
    (canon : List CanonicalPub) (h : ∀ p ∈ canon, lookup1 p = lookup2 p) :
    catalogPass lookup1 canon = catalogPass lookup2 canon := by
  induction canon with
  | nil => rfl
  | cons p rest ih =>
    have hrest : catalogPass lookup1 rest = catalogPass lookup2 rest :=
      ih (fun q hq => h q (List.mem_cons_of_mem _ hq))
    unfold catalogPass
    rw [hrest, h p (List.mem_cons_self _ _)]

/-- Witness for C7 at a one-record canonical set with an unchanged catalog. -/
theorem catalogPass_idempotent_witness :
    catalogPass (fun (_ : CanonicalPub) => (.ok none : Except String (Option String)))
        [(⟨"10.1/x", "T", 2024⟩ : CanonicalPub)] =
      catalogPass (fun _ => .ok none) [⟨"10.1/x", "T", 2024⟩] :=
  catalogPass_idempotent (fun _ => .ok none) (fun _ => .ok none)
    [⟨"10.1/x", "T", 2024⟩] (fun _ _ => rfl)

/-- Ordering a group by source preference neither adds nor removes records. -/
theorem mem_orderBySource (prefOrder : List String) (group : List SourceRecord)
    (r : SourceRecord) : r ∈ orderBySource prefOrder group ↔ r ∈ group := by
  constructor
  · intro hr
    rcases List.mem_append.mp hr with h | h
    · obtain ⟨ws, hws, hrws⟩ := List.mem_flatten.mp h
      obtain ⟨s, -, rfl⟩ := List.mem_map.mp hws
      exact (List.mem_filter.mp hrws).1
    · exact (List.mem_filter.mp h).1
  · intro hr
    by_cases hs : r.source ∈ prefOrder
    · exact List.mem_append.mpr (Or.inl (List.mem_flatten.mpr
        ⟨_, List.mem_map.mpr ⟨r.source, hs, rfl⟩, List.mem_filter.mpr ⟨hr, by simp⟩⟩))
    · exact List.mem_append.mpr (Or.inr (List.mem_filter.mpr ⟨hr, by simpa using hs⟩))

/-- C5: when a merge group has at least one contribution with a mapped
doctype, the merge yields a collection that some contributor maps to, is not
rejected, and records an UnmappedDoctypeError note for every unmapped
contributor; when no contribution maps, the publication is rejected with
reason unmappable_doctype. -/
theorem mergeGroupDoctype_spec (mapping : List (String × String))
    (prefOrder : List String) (group : List SourceRecord) :
    ((∃ r ∈ group, (mapDoctype mapping r.doctype).isSome) →
      ∃ c, (mergeGroupDoctype mapping prefOrder group).collection = some c ∧
        (∃ r ∈ group, mapDoctype mapping r.doctype = some c) ∧
        (mergeGroupDoctype mapping prefOrder group).rejected = none ∧
        ∀ r ∈ group, mapDoctype mapping r.doctype = none →
          (r.source, "UnmappedDoctypeError") ∈ (mergeGroupDoctype mapping prefOrder group).notes) ∧
    ((∀ r ∈ group, mapDoctype mapping r.doctype = none) →
      (mergeGroupDoctype mapping prefOrder group).rejected = some "unmappable_doctype" ∧
      (mergeGroupDoctype mapping prefOrder group).collection = none) := by
  constructor
  · rintro ⟨r0, hr0, hsome⟩
    have hmem : r0 ∈ orderBySource prefOrder group :=
      (mem_orderBySource prefOrder group r0).mpr hr0
    obtain ⟨c0, hc0⟩ := Option.isSome_iff_exists.mp hsome
    have hne : (orderBySource prefOrder group).filterMap
        (fun r => mapDoctype mapping r.doctype) ≠ [] := by
      intro hnil
      have := List.filterMap_eq_nil_iff.mp hnil r0 hmem
      rw [hc0] at this
      exact Option.noConfusion this
    rcases hhead : ((orderBySource prefOrder group).filterMap
        (fun r => mapDoctype mapping r.doctype)).head? with - | c
    · exact absurd (List.head?_eq_none_iff.mp hhead) hne
    · have hcmem : c ∈ (orderBySource prefOrder group).filterMap
          (fun r => mapDoctype mapping r.doctype) :=
        List.mem_of_mem_head? (by rw [hhead]; rfl)
      obtain ⟨r1, hr1, hmap1⟩ := List.mem_filterMap.mp hcmem
      refine ⟨c, ?_, ⟨r1, (mem_orderBySource prefOrder group r1).mp hr1, hmap1⟩, ?_, ?_⟩
      · simp [mergeGroupDoctype, hhead]
      · simp [mergeGroupDoctype, hhead]
      · intro r hr hnone
        simp only [mergeGroupDoctype, hhead, List.mem_map, List.mem_filter]
        exact ⟨r, by simp [hr, hnone], rfl⟩
  · intro hall
    have hnil : (orderBySource prefOrder group).filterMap
        (fun r => mapDoctype mapping r.doctype) = [] := by
      rw [List.filterMap_eq_nil_iff]
      intro r hr
      exact hall r ((mem_orderBySource prefOrder group r).mp hr)
    constructor <;> simp [mergeGroupDoctype, hnil]

/-- Witness for C5: a mapped wos article merged with an unmapped scopus
doctype keeps the collection, is not rejected, and notes the unmapped source. -/
theorem mergeGroupDoctype_spec_witness :
    ∃ c, (mergeGroupDoctype [("article", "Journal articles")] ["wos", "scopus"]
        [⟨"wos", "W1", "10.1/abc", "Foo Bar", "article", 2024, []⟩,
         ⟨"scopus", "S1", "10.1/abc", "FOO BAR", "weird", 2024, []⟩]).collection = some c ∧
      (∃ r ∈ [(⟨"wos", "W1", "10.1/abc", "Foo Bar", "article", 2024, []⟩ : SourceRecord),
         ⟨"scopus", "S1", "10.1/abc", "FOO BAR", "weird", 2024, []⟩],
        mapDoctype [("article", "Journal articles")] r.doctype = some c) ∧
      (mergeGroupDoctype [("article", "Journal articles")] ["wos", "scopus"]
        [⟨"wos", "W1", "10.1/abc", "Foo Bar", "article", 2024, []⟩,
         ⟨"scopus", "S1", "10.1/abc", "FOO BAR", "weird", 2024, []⟩]).rejected = none ∧
      ∀ r ∈ [(⟨"wos", "W1", "10.1/abc", "Foo Bar", "article", 2024, []⟩ : SourceRecord),
         ⟨"scopus", "S1", "10.1/abc", "FOO BAR", "weird", 2024, []⟩],
        mapDoctype [("article", "Journal articles")] r.doctype = none →
          (r.source, "UnmappedDoctypeError") ∈
            (mergeGroupDoctype [("article", "Journal articles")] ["wos", "scopus"]
              [⟨"wos", "W1", "10.1/abc", "Foo Bar", "article", 2024, []⟩,
               ⟨"scopus", "S1", "10.1/abc", "FOO BAR", "weird", 2024, []⟩]).notes :=
  (mergeGroupDoctype_spec [("article", "Journal articles")] ["wos", "scopus"]
      [⟨"wos", "W1", "10.1/abc", "Foo Bar", "article", 2024, []⟩,
       ⟨"scopus", "S1", "10.1/abc", "FOO BAR", "weird", 2024, []⟩]).1
    ⟨⟨"wos", "W1", "10.1/abc", "Foo Bar", "article", 2024, []⟩,
      List.mem_cons_self _ _, by decide⟩

/-- C1: two records from different sources sharing a non-empty normalized DOI
merge into exactly one canonical publication, and the canonical set does not
depend on which source sequence is presented first (up to entry order and
group order). -/
theorem dedup_doi_merge (l1 l2 : List SourceRecord) (r1 r2 : SourceRecord)
    (h1 : r1 ∈ l1) (h2 : r2 ∈ l2) (hs : r1.source ≠ r2.source)
    (hdoi : normalizeDoi r1.doi = normalizeDoi r2.doi)
    (hne : normalizeDoi r1.doi ≠ "") :
    (canonicalSet (l1 ++ l2)).countP
        (fun e => decide (r1 ∈ e.2 ∨ r2 ∈ e.2)) = 1 ∧
    (canonicalSetM (l1 ++ l2)).Perm (canonicalSetM (l2 ++ l1)) := by
  have hk2 : identityKey r2 = identityKey r1 := by
    unfold identityKey
    rw [← hdoi]
    simp [hne]
  constructor
  · have hr1mem : r1 ∈ l1 ++ l2 := List.mem_append_left _ h1
    have hr2mem : r2 ∈ l1 ++ l2 := List.mem_append_right _ h2
    have kmem : identityKey r1 ∈ ((l1 ++ l2).map identityKey).dedup :=
      List.mem_dedup.mpr (List.mem_map.mpr ⟨r1, hr1mem, rfl⟩)
    unfold canonicalSet
    rw [List.countP_map]
    have hcong : (((l1 ++ l2).map identityKey).dedup).countP
        ((fun e => decide (r1 ∈ e.2 ∨ r2 ∈ e.2)) ∘
          (fun k => (k, (l1 ++ l2).filter (fun r => identityKey r = k))))
        = (((l1 ++ l2).map identityKey).dedup).countP (fun k => k == identityKey r1) := by
      apply List.countP_congr
      intro k hk
      simp only [Function.comp_apply, decide_eq_true_eq, beq_iff_eq, List.mem_filter,
        hr1mem, hr2mem, true_and, hk2]
      constructor
      · rintro (h | h) <;> exact h.symm
      · rintro rfl
        exact Or.inl rfl
    rw [hcong, ← List.count_eq_countP]
    exact List.count_eq_one_of_mem (List.nodup_dedup _) kmem
  · have hperm : (((l1 ++ l2).map identityKey).dedup).Perm
        (((l2 ++ l1).map identityKey).dedup) := by
      refine (List.perm_ext_iff_of_nodup (List.nodup_dedup _) (List.nodup_dedup _)).mpr ?_
      intro k
      simp only [List.mem_dedup, List.mem_map, List.mem_append]
      constructor
      · rintro ⟨r, h | h, rfl⟩ <;> exact ⟨r, by tauto, rfl⟩
      · rintro ⟨r, h | h, rfl⟩ <;> exact ⟨r, by tauto, rfl⟩
    have hfun : (fun k => (k, (((l1 ++ l2).filter (fun r => identityKey r = k)) :
          Multiset SourceRecord)))
        = (fun k => (k, (((l2 ++ l1).filter (fun r => identityKey r = k)) :
          Multiset SourceRecord))) := by
      funext k
      refine congrArg (Prod.mk k) ?_
      refine Multiset.coe_eq_coe.mpr ?_
      rw [List.filter_append, List.filter_append]
      exact List.perm_append_comm
    have hMA : canonicalSetM (l1 ++ l2)
        = (((l1 ++ l2).map identityKey).dedup).map
          (fun k => (k, (((l1 ++ l2).filter (fun r => identityKey r = k)) :
            Multiset SourceRecord))) := by
      unfold canonicalSetM canonicalSet
      rw [List.map_map]
      rfl
    have hMB : canonicalSetM (l2 ++ l1)
        = (((l2 ++ l1).map identityKey).dedup).map
          (fun k => (k, (((l2 ++ l1).filter (fun r => identityKey r = k)) :
            Multiset SourceRecord))) := by
      unfold canonicalSetM canonicalSet
      rw [List.map_map]
      rfl
    rw [hMA, hMB, hfun]
    exact hperm.map _

/-- Witness for C1: a WoS and a Scopus record sharing the DOI 10.1/abc up to
case merge into one canonical publication either way around. -/
theorem dedup_doi_merge_witness :
    (canonicalSet ([(⟨"wos", "W1", "10.1/ABC", "Foo Bar", "article", 2024, []⟩ : SourceRecord)] ++
        [⟨"scopus", "S1", "10.1/abc", "FOO BAR", "article", 2024, []⟩])).countP
        (fun e => decide ((⟨"wos", "W1", "10.1/ABC", "Foo Bar", "article", 2024, []⟩ : SourceRecord) ∈ e.2 ∨
          (⟨"scopus", "S1", "10.1/abc", "FOO BAR", "article", 2024, []⟩ : SourceRecord) ∈ e.2)) = 1 ∧
    (canonicalSetM ([(⟨"wos", "W1", "10.1/ABC", "Foo Bar", "article", 2024, []⟩ : SourceRecord)] ++
        [⟨"scopus", "S1", "10.1/abc", "FOO BAR", "article", 2024, []⟩])).Perm
      (canonicalSetM ([(⟨"scopus", "S1", "10.1/abc", "FOO BAR", "article", 2024, []⟩ : SourceRecord)] ++
        [⟨"wos", "W1", "10.1/ABC", "Foo Bar", "article", 2024, []⟩])) :=
  dedup_doi_merge
    [⟨"wos", "W1", "10.1/ABC", "Foo Bar", "article", 2024, []⟩]
    [⟨"scopus", "S1", "10.1/abc", "FOO BAR", "article", 2024, []⟩]
    ⟨"wos", "W1", "10.1/ABC", "Foo Bar", "article", 2024, []⟩
    ⟨"scopus", "S1", "10.1/abc", "FOO BAR", "article", 2024, []⟩
    (List.mem_singleton.mpr rfl) (List.mem_singleton.mpr rfl)
    (by decide) (by decide) (by decide)

/-- C2 (amended): two empty-DOI records merge into one canonical publication
iff their normalized titles and pubyears are exactly equal; records whose
normalized titles differ are never merged. -/
theorem dedup_emptydoi_title_year (l : List SourceRecord) (r1 r2 : SourceRecord)
    (h1 : r1 ∈ l) (h2 : r2 ∈ l) (hd1 : r1.doi = "") (hd2 : r2.doi = "") :
    (∃ e ∈ canonicalSet l, r1 ∈ e.2 ∧ r2 ∈ e.2) ↔
      (normalizeTitle r1.title = normalizeTitle r2.title ∧ r1.pubyear = r2.pubyear) := by
  have hk1 : identityKey r1 = .titleYear (normalizeTitle r1.title) r1.pubyear := by
    simp [identityKey, hd1, normalizeDoi]
  have hk2 : identityKey r2 = .titleYear (normalizeTitle r2.title) r2.pubyear := by
    simp [identityKey, hd2, normalizeDoi]
  constructor
  · rintro ⟨e, hmem, he1, he2⟩
    obtain ⟨k, -, rfl⟩ := List.mem_map.mp hmem
    have hq1 : identityKey r1 = k := by
      have := List.mem_filter.mp he1
      simpa using this.2
    have hq2 : identityKey r2 = k := by
      have := List.mem_filter.mp he2
      simpa using this.2
    have : identityKey r1 = identityKey r2 := hq1.trans hq2.symm
    rw [hk1, hk2] at this
    exact ⟨(IdKey.titleYear.injEq _ _ _ _).mp this |>.1,
      (IdKey.titleYear.injEq _ _ _ _).mp this |>.2⟩
  · rintro ⟨ht, hy⟩
    have hkeq : identityKey r1 = identityKey r2 := by
      rw [hk1, hk2, ht, hy]
    refine ⟨(identityKey r1, l.filter (fun r => identityKey r = identityKey r1)), ?_, ?_, ?_⟩
    · exact List.mem_map.mpr ⟨identityKey r1,
        List.mem_dedup.mpr (List.mem_map.mpr ⟨r1, h1, rfl⟩), rfl⟩
    · exact List.mem_filter.mpr ⟨h1, by simp⟩
    · exact List.mem_filter.mpr ⟨h2, by simp [hkeq]⟩

/-- Counterexample for C2 as stated: two empty-DOI records whose titles differ
in exactly one character (Cat versus cat) are nevertheless merged into one
canonical publication, because title matching happens after normalization. -/
theorem dedup_emptydoi_onechar_counterexample :
    "Cat".length = "cat".length ∧ hammingDiff "Cat" "cat" = 1 ∧ "Cat" ≠ "cat" ∧
    (canonicalSet [(⟨"wos", "W1", "", "Cat", "article", 2024, []⟩ : SourceRecord),
        ⟨"scopus", "S1", "", "cat", "article", 2024, []⟩]).countP
      (fun e => decide ((⟨"wos", "W1", "", "Cat", "article", 2024, []⟩ : SourceRecord) ∈ e.2 ∧
        (⟨"scopus", "S1", "", "cat", "article", 2024, []⟩ : SourceRecord) ∈ e.2)) = 1 := by
  refine ⟨rfl, by decide, by decide, ?_⟩
  decide

/-- Witness for C2 (amended): records titled Foo  Bar. and foo bar with equal
pubyear and empty DOIs are merged. -/
theorem dedup_emptydoi_title_year_witness :
    ∃ e ∈ canonicalSet [(⟨"wos", "W1", "", "Foo  Bar.", "article", 2024, []⟩ : SourceRecord),
        ⟨"scopus", "S1", "", "foo bar", "article", 2024, []⟩],
      (⟨"wos", "W1", "", "Foo  Bar.", "article", 2024, []⟩ : SourceRecord) ∈ e.2 ∧
      (⟨"scopus", "S1", "", "foo bar", "article", 2024, []⟩ : SourceRecord) ∈ e.2 :=
  (dedup_emptydoi_title_year
      [⟨"wos", "W1", "", "Foo  Bar.", "article", 2024, []⟩,
       ⟨"scopus", "S1", "", "foo bar", "article", 2024, []⟩]
      ⟨"wos", "W1", "", "Foo  Bar.", "article", 2024, []⟩
      ⟨"scopus", "S1", "", "foo bar", "article", 2024, []⟩
      (List.mem_cons_self _ _) (List.mem_cons_of_mem _ (List.mem_singleton.mpr rfl))
      rfl rfl).mpr ⟨by decide, rfl⟩

/-- Characters in the output of the token splitter come from non-separator
positions. -/
theorem splitAux_chars (p : Char → Bool) (l : List Char) :
    (∀ c ∈ (splitAux p l).1, p c = false) ∧
    (∀ w ∈ (splitAux p l).2, ∀ c ∈ w, p c = false) := by
  induction l with
  | nil => simp [splitAux]
  | cons c cs ih =>
    by_cases hc : p c
    · simp only [splitAux, hc, if_true]
      exact ⟨by simp, by
        intro w hw
        rcases List.mem_cons.mp hw with h | h
        · subst h; exact ih.1
        · exact ih.2 w h⟩
    · simp only [splitAux, hc, if_false]
      refine ⟨?_, ih.2⟩
      intro d hd
      rcases List.mem_cons.mp hd with h | h
      · subst h; simpa using hc
      · exact ih.1 d h

/-- Tokens produced by wordsP are non-empty and separator-free. -/
theorem wordsP_tokens (p : Char → Bool) (l : List Char) :
    ∀ w ∈ wordsP p l, w ≠ [] ∧ ∀ c ∈ w, p c = false := by
  intro w hw
  unfold wordsP at hw
  have hmem := List.mem_filter.mp hw
  refine ⟨by simpa using hmem.2, ?_⟩
  rcases List.mem_cons.mp hmem.1 with h | h
  · subst h; exact (splitAux_chars p l).1
  · exact (splitAux_chars p l).2 w h

/-- Splitting after a separator-free prefix accumulates it onto the current
word. -/
theorem splitAux_app_sepfree (p : Char → Bool) (w l : List Char)
    (hw : ∀ c ∈ w, p c = false) :
    splitAux p (w ++ l) = ((w ++ (splitAux p l).1, (splitAux p l).2)) := by
  induction w with
  | nil => simp
  | cons c cs ih =>
    have hc : p c = false := hw c (List.mem_cons_self _ _)
    have ih2 := ih (fun d hd => hw d (List.mem_cons_of_mem _ hd))
    simp [splitAux, hc, ih2]

/-- A non-empty separator-free list is a single token. -/
theorem wordsP_sepfree (p : Char → Bool) (w : List Char)
    (hwne : w ≠ []) (hfree : ∀ c ∈ w, p c = false) :
    wordsP p w = [w] := by
  unfold wordsP
  have hsplit : splitAux p w = (w, []) := by
    have := splitAux_app_sepfree p w [] hfree
    simpa [splitAux] using this
  rw [hsplit]
  simp [hwne]

/-- Prepending a non-empty separator-free word and a space adds one token. -/
theorem wordsP_cons_sepfree (p : Char → Bool) (hsp : p ' ' = true)
    (w : List Char) (hwne : w ≠ []) (hfree : ∀ c ∈ w, p c = false)
    (l : List Char) :
    wordsP p (w ++ ' ' :: l) = w :: wordsP p l := by
  unfold wordsP
  rw [splitAux_app_sepfree p w (' ' :: l) hfree]
  have hsp2 : splitAux p (' ' :: l) = ([], (splitAux p l).1 :: (splitAux p l).2) := by
    simp [splitAux, hsp]
  rw [hsp2]
  simp only [List.append_nil]
  rw [List.filter_cons, if_pos (by simpa using hwne)]

/-- Splitting words out of their space-joined form recovers them, provided
every word is non-empty and separator-free and the space is a separator. -/
theorem wordsP_unwords (p : Char → Bool) (hsp : p ' ' = true) :
    ∀ ws : List (List Char), (∀ w ∈ ws, w ≠ [] ∧ ∀ c ∈ w, p c = false) →
      wordsP p (unwords ws) = ws := by
  intro ws
  induction ws with
  | nil => intro _; simp [unwords, wordsP, splitAux]
  | cons w ws ih =>
    intro hgood
    have hw := hgood w (List.mem_cons_self _ _)
    cases ws with
    | nil => exact wordsP_sepfree p w hw.1 hw.2
    | cons w2 ws2 =>
      have hrest : wordsP p (unwords (w2 :: ws2)) = w2 :: ws2 :=
        ih (fun v hv => hgood v (List.mem_cons_of_mem _ hv))
      have h1 : unwords (w :: w2 :: ws2) = w ++ ' ' :: unwords (w2 :: ws2) := rfl
      rw [h1, wordsP_cons_sepfree p hsp w hw.1 hw.2, hrest]

/-- A token accepted by cleanTok is a fixed point of cleanTok, is non-empty,
and only loses characters. -/
theorem cleanTok_fix {w v : List Char} (h : cleanTok w = some v) :
    cleanTok v = some v ∧ v ≠ [] ∧ ∀ c ∈ v, c ∈ w := by
  by_cases hcond : stripPunctTok w = [] ∨ (stripPunctTok w).map Char.toLower ∈ honorifics
  · simp [cleanTok, hcond] at h
  · have hv : v = stripPunctTok w := by
      have hw : cleanTok w = some (stripPunctTok w) := by
        simp only [cleanTok]
        exact if_neg hcond
      rw [hw] at h
      exact (Option.some.inj h).symm
    subst hv
    have hpv : stripPunctTok (stripPunctTok w) = stripPunctTok w := by
      unfold stripPunctTok
      rw [List.filter_filter]
      apply List.filter_congr
      intro c _
      cases hcp : isPunctChar c <;> simp [hcp]
    push_neg at hcond
    refine ⟨?_, hcond.1, fun c hc => List.mem_of_mem_filter hc⟩
    simp only [cleanTok, hpv]
    rw [if_neg]
    push_neg
    exact hcond

/-- A list of cleanTok fixed points is unchanged by filtering through
cleanTok. -/
theorem filterMap_cleanTok_fixed :
    ∀ ts : List (List Char), (∀ v ∈ ts, cleanTok v = some v) →
      ts.filterMap cleanTok = ts := by
  intro ts
  induction ts with
  | nil => intro _; rfl
  | cons t ts ih =>
    intro hfix
    rw [List.filterMap_cons, hfix t (List.mem_cons_self _ _),
      ih (fun v hv => hfix v (List.mem_cons_of_mem _ hv))]

/-- The cleaned token stream consists of non-empty, space-free fixed points of
cleanTok. -/
theorem cleanChars_tokens_good (l : List Char) :
    ∀ v ∈ (wordsP isSpaceChar l).filterMap cleanTok,
      (v ≠ [] ∧ ∀ c ∈ v, isSpaceChar c = false) ∧ cleanTok v = some v := by
  intro v hv
  obtain ⟨w, hw, hwv⟩ := List.mem_filterMap.mp hv
  have hwgood := wordsP_tokens isSpaceChar l w hw
  obtain ⟨hfix, hne, hsub⟩ := cleanTok_fix hwv
  exact ⟨⟨hne, fun c hc => hwgood.2 c (hsub c hc)⟩, hfix⟩

/-- Character-level idempotence of the name cleaner. -/
theorem cleanChars_idem (l : List Char) : cleanChars (cleanChars l) = cleanChars l := by
  unfold cleanChars
  rw [wordsP_unwords isSpaceChar (by decide) ((wordsP isSpaceChar l).filterMap cleanTok)
    (fun v hv => (cleanChars_tokens_good l v hv).1)]
  rw [filterMap_cleanTok_fixed ((wordsP isSpaceChar l).filterMap cleanTok)
    (fun v hv => (cleanChars_tokens_good l v hv).2)]

/-- C8: the name-cleaning stage is idempotent (and, being a pure function,
deterministic): cleaning an already-cleaned name returns it unchanged. -/
theorem cleanName_idempotent (x : String) : cleanName (cleanName x) = cleanName x := by
  unfold cleanName
  exact congrArg String.mk (cleanChars_idem x.data)

end Infoscience
